import Mathlib

/-!
Verification of `ytt.py`, a YouTube-transcript fetching tool.

Python strings are modelled as `List Char` (`Str` below); the pure string
pipeline (`format_transcript`, `sanitize_filename`, the video-id extraction)
is translated function by function, and the effectful dispatcher
`get_transcript` is modelled over an explicit environment recording the
outcome of each external call (transcript fetch, title fetch, clipboard,
file write).
-/

namespace Ytt

/-- Python strings are modelled as lists of characters. -/
abbrev Str := List Char

/-- Convert a Lean string literal to the character-list model. -/
def lit (s : String) : Str := s.toList

/-- ASCII whitespace as recognised by Python's `str.strip()` / `str.split()`
and by the regex class `[\s]` (restricted to ASCII). -/
def isSpace (c : Char) : Bool :=
  c = ' ' || c = '\t' || c = '\n' || c = '\r' || c = '\x0b' || c = '\x0c'

/-- Python `str.lstrip()` with no argument. -/
def lstripWs (s : Str) : Str := s.dropWhile isSpace

/-- Python `str.rstrip()` with no argument. -/
def rstripWs (s : Str) : Str := (s.reverse.dropWhile isSpace).reverse

/-- Python `str.strip()` with no argument: drop whitespace from both ends. -/
def pyStrip (s : Str) : Str := rstripWs (lstripWs s)

/-- `startsWith2 pat s` : does `s` start with `pat`? (Python slice comparison.) -/
def startsWith2 : Str → Str → Bool
  | [], _ => true
  | _ :: _, [] => false
  | c :: ps, d :: ss => c = d && startsWith2 ps ss

/-- `containsPat pat s` : Python's substring test `pat in s`. -/
def containsPat (pat : Str) : Str → Bool
  | [] => startsWith2 pat []
  | c :: ss => startsWith2 pat (c :: ss) || containsPat pat ss

/-- Python `s.split(sep)` for a one-character separator `[a]`. -/
def pySplit1 (a : Char) : Str → List Str
  | [] => [[]]
  | c :: cs =>
    if c = a then [] :: pySplit1 a cs
    else
      match pySplit1 a cs with
      | [] => [[c]]
      | p :: ps => (c :: p) :: ps

/-- Python `s.split(sep)` for a two-character separator `[a, b]` (the multi
character separators used by `ytt.py` are `">>"`, `"\n\n"` and `"v="`).
The leftmost occurrence of the separator is split off first, as in CPython. -/
def pySplit2 (a b : Char) : Str → List Str
  | [] => [[]]
  | [c] => [[c]]
  | c :: d :: rest =>
    if c = a ∧ d = b then [] :: pySplit2 a b rest
    else
      match pySplit2 a b (d :: rest) with
      | [] => [[c]]
      | p :: ps => (c :: p) :: ps

/-- Helper for `pyWords`: `acc` is the reversed current word. -/
def pyWordsAux : Str → Str → List Str
  | acc, [] => if acc = [] then [] else [acc.reverse]
  | acc, c :: cs =>
    if isSpace c then
      if acc = [] then pyWordsAux [] cs else acc.reverse :: pyWordsAux [] cs
    else pyWordsAux (c :: acc) cs

/-- Python `s.split()` with no separator: maximal whitespace-free words. -/
def pyWords (s : Str) : List Str := pyWordsAux [] s

/-- The deduplicating collection pass of `format_transcript` (ytt.py lines
12-24): each snippet's text is stripped; a stripped text equal to the last
*kept* text (`last_text`) is skipped, everything else is appended. -/
def dedupTexts : Option Str → List Str → List Str
  | _, [] => []
  | last, s :: rest =>
    let text := pyStrip s
    if last = some text then dedupTexts last rest
    else text :: dedupTexts (some text) rest

/-- The paragraph list built by `format_transcript` (ytt.py lines 26-37): join
the deduplicated texts with single spaces, split on the literal `">>"` marker,
strip each piece and drop the empty ones. -/
def cleaned_paragraphs (fetched_transcript : List Str) : List Str :=
  ((pySplit2 '>' '>'
      (List.intercalate [' '] (dedupTexts none fetched_transcript))).map
    pyStrip).filter (fun para => para ≠ [])

/-- `format_transcript` (ytt.py lines 10-39).  A caption snippet is modelled by
its text; timestamps are received but unused by the source. -/
def format_transcript (fetched_transcript : List Str) : Str :=
  List.intercalate ['\n', '\n'] (cleaned_paragraphs fetched_transcript)

/-- The invalid filename characters replaced by `sanitize_filename`
(ytt.py line 81). -/
def invalidChars : Str := ['<', '>', ':', '"', '/', '\\', '|', '?', '*']

/-- Whitespace-or-hyphen: the regex class `[\s\-]` of ytt.py line 86. -/
def isSpaceOrDash (c : Char) : Bool := isSpace c || c = '-'

/-- One pass of `re.sub` with class `[\s\-]+` and replacement `'-'`: every
maximal run of whitespace/hyphen characters becomes a single hyphen.  The flag
records whether we are currently inside such a run. -/
def collapseAux : Bool → Str → Str
  | _, [] => []
  | inRun, c :: cs =>
    if isSpaceOrDash c then
      if inRun then collapseAux true cs else '-' :: collapseAux true cs
    else c :: collapseAux false cs

/-- The whole substitution of ytt.py line 86. -/
def collapseRuns (s : Str) : Str := collapseAux false s

/-- The character set of `strip('- ')` / `rstrip('- ')` (ytt.py lines 89, 93). -/
def isDashSpace (c : Char) : Bool := c = '-' || c = ' '

/-- Python `s.lstrip('- ')`. -/
def lstripDS (s : Str) : Str := s.dropWhile isDashSpace

/-- Python `s.rstrip('- ')`. -/
def rstripDS (s : Str) : Str := (s.reverse.dropWhile isDashSpace).reverse

/-- `sanitize_filename` (ytt.py lines 73-95); `max_length` is 100 at the single
call site. -/
def sanitize_filename (title : Str) (max_length : Nat) : Str :=
  if title = [] then []
  else
    let t1 := title.map (fun c => if invalidChars.contains c then '-' else c)
    let t2 := collapseRuns t1
    let t3 := rstripDS (lstripDS t2)
    if max_length < t3.length then rstripDS (t3.take max_length) else t3

/-- Video-identifier extraction, ytt.py line 101:
`video_url.split('v=')[-1].split('&')[0]`. -/
def extract_video_id (video_url : Str) : Str :=
  List.headD (pySplit1 '&' (List.getLastD (pySplit2 'v' '=' video_url) [])) []

/-- Specification-side description of the extractor: the suffix of the string
following the *last* occurrence of `"v="`, or `none` when `"v="` does not
occur. -/
def afterLastVE : Str → Option Str
  | [] => none
  | [_] => none
  | c :: d :: rest =>
    if c = 'v' ∧ d = '=' then some ((afterLastVE rest).getD rest)
    else afterLastVE (d :: rest)

/-- The message fragment tested by the error handler, ytt.py line 143. -/
def subtitlesDisabledMsg : Str := lit "Subtitles are disabled"

/-- Environment of one run: the outcomes of the external effects.
`fetchResult` is the transcript fetch (fatal on error, carrying the
exception's message); `titleResult` is what `fetch_video_title` returns (it
catches its own failures and returns the empty string); `clipboardOk` is
whether the platform clipboard call succeeds; `writeResult` is `none` when
`open`/`write` succeed and `some message` when they raise. -/
structure Env where
  fetchResult : Except Str (List Str)
  titleResult : Str
  clipboardOk : Bool
  writeResult : Option Str

/-- The user-visible messages printed by `get_transcript` and its helpers. -/
inductive Msg where
  | fetching (video_id : Str)
  | fetched
  | words (n : Nat)
  | paragraphs (n : Nat)
  | clipboardCopied
  | clipboardFailed
  | titleUnavailable
  | saved (f : Str)
  | errorMsg (e : Str)
  | subtitlesHint
deriving DecidableEq

/-- `copy_to_clipboard` (ytt.py lines 42-57): best effort, catches all its own
failures and reports success/failure. -/
def copy_to_clipboard (env : Env) : Bool × Msg :=
  if env.clipboardOk then (true, Msg.clipboardCopied) else (false, Msg.clipboardFailed)

/-- `fetch_video_title` (ytt.py lines 60-70): best effort, catches its own
failures (returning `''`), so it never raises into `get_transcript`. -/
def fetch_video_title (env : Env) : Str := env.titleResult

/-- Result of one run of `get_transcript`: the process exit status, the
printed messages in order, and the file written (if any). -/
structure RunResult where
  exitCode : Nat
  messages : List Msg
  savedFile : Option Str
deriving DecidableEq

/-- `get_transcript` (ytt.py lines 98-145).  The whole body is one
`try/except`: a fetch failure or a file-write failure reaches the handler,
which prints the error (plus a hint when the message contains
`"Subtitles are disabled"`) and exits with status 1.  All other stages are
best-effort and cannot raise. -/
def get_transcript (env : Env) (video_url : Str) (output_file : Option Str) :
    RunResult :=
  let video_id := extract_video_id video_url
  match env.fetchResult with
  | Except.error e =>
    RunResult.mk 1
      ([Msg.fetching video_id, Msg.errorMsg e] ++
        (if containsPat subtitlesDisabledMsg e then [Msg.subtitlesHint] else []))
      none
  | Except.ok fetched_transcript =>
    let clean_text := format_transcript fetched_transcript
    let word_count := (pyWords clean_text).length
    let paragraph_count := (pySplit2 '\n' '\n' clean_text).length
    let base := [Msg.fetching video_id, Msg.fetched, Msg.words word_count,
      Msg.paragraphs paragraph_count, (copy_to_clipboard env).2]
    match output_file with
    | none => RunResult.mk 0 base none
    | some f =>
      let named :=
        if f = [] then
          let video_title := fetch_video_title env
          let sanitized_title := sanitize_filename video_title 100
          if sanitized_title ≠ [] then
            (sanitized_title ++ lit "-[" ++ video_id ++ lit "]-transcript.txt",
              ([] : List Msg))
          else
            (video_id ++ lit "_transcript.txt", [Msg.titleUnavailable])
        else (f, ([] : List Msg))
      match env.writeResult with
      | none =>
        RunResult.mk 0 (base ++ named.2 ++ [Msg.saved named.1]) (some named.1)
      | some m =>
        RunResult.mk 1
          (base ++ named.2 ++ [Msg.errorMsg m] ++
            (if containsPat subtitlesDisabledMsg m then [Msg.subtitlesHint]
             else []))
          none

/-! ### Basic facts about the substring test -/

theorem containsPat_nil_pat (s : Str) : containsPat [] s = true := by
  induction s with
  | nil => rfl
  | cons c ss ih => simp [containsPat, startsWith2]

theorem containsPat_cons_false {pat : Str} {c : Char} {s : Str}
    (h : containsPat pat (c :: s) = false) : containsPat pat s = false := by
  have h' := h
  simp only [containsPat, Bool.or_eq_false_iff] at h'
  exact h'.2

theorem startsWith2_append {pat s : Str} (w : Str)
    (h : startsWith2 pat s = true) : startsWith2 pat (s ++ w) = true := by
  induction pat generalizing s with
  | nil => simp [startsWith2]
  | cons c ps ih =>
    cases s with
    | nil => simp [startsWith2] at h
    | cons d ss =>
      simp only [startsWith2, Bool.and_eq_true] at h ⊢
      exact ⟨h.1, ih h.2⟩

theorem containsPat_append_left {pat s : Str} (u : Str)
    (h : containsPat pat s = true) : containsPat pat (u ++ s) = true := by
  induction u with
  | nil => simpa using h
  | cons c u ih =>
    rw [List.cons_append]
    simp only [containsPat, Bool.or_eq_true]
    exact Or.inr ih

theorem containsPat_append_right {pat s : Str} (w : Str)
    (h : containsPat pat s = true) : containsPat pat (s ++ w) = true := by
  induction s with
  | nil =>
    have hp : pat = [] := by
      cases pat with
      | nil => rfl
      | cons c ps => simp [containsPat, startsWith2] at h
    subst hp
    exact containsPat_nil_pat w
  | cons c ss ih =>
    simp only [containsPat, Bool.or_eq_true] at h
    rcases h with h | h
    · simp only [List.cons_append, containsPat, Bool.or_eq_true]
      exact Or.inl (by simpa using startsWith2_append w h)
    · simp only [List.cons_append, containsPat, Bool.or_eq_true]
      exact Or.inr (ih h)

theorem containsPat_of_occurs {pat p : Str} (u w : Str)
    (h : containsPat pat p = true) : containsPat pat (u ++ p ++ w) = true := by
  rw [List.append_assoc]
  exact containsPat_append_left u (containsPat_append_right w h)

theorem containsPat_single {x y c : Char} : containsPat [x, y] [c] = false := by
  simp [containsPat, startsWith2]

theorem startsWith2_pair {x y c d : Char} (t t' : Str) :
    startsWith2 [x, y] (c :: d :: t) = startsWith2 [x, y] (c :: d :: t') := by
  simp [startsWith2]

/-- Gluing two strings free of a two-character pattern keeps them free of it,
provided the pattern does not appear across the boundary. -/
theorem containsPat2_append {x y : Char} {p q : Str}
    (hp : containsPat [x, y] p = false) (hq : containsPat [x, y] q = false)
    (hb : ¬(p.getLast? = some x ∧ q.head? = some y)) :
    containsPat [x, y] (p ++ q) = false := by
  induction p with
  | nil => simpa using hq
  | cons c p' ih =>
    cases p' with
    | nil =>
      show containsPat [x, y] (c :: q) = false
      simp only [containsPat, Bool.or_eq_false_iff]
      refine ⟨?_, hq⟩
      cases q with
      | nil => simp [startsWith2]
      | cons d q' =>
        by_cases hxc : x = c
        · by_cases hyd : y = d
          · exact absurd ⟨by simp [hxc], by simp [hyd]⟩ hb
          · simp [startsWith2, hyd]
        · simp [startsWith2, hxc]
    | cons c' p'' =>
      have hp' : containsPat [x, y] (c' :: p'') = false := containsPat_cons_false hp
      have hb' : ¬((c' :: p'').getLast? = some x ∧ q.head? = some y) := by
        simpa [List.getLast?_cons_cons] using hb
      have hrec : containsPat [x, y] ((c' :: p'') ++ q) = false := ih hp' hb'
      have hsw : startsWith2 [x, y] (c :: c' :: p'') = false := by
        have h0 := hp
        simp only [containsPat, Bool.or_eq_false_iff] at h0
        exact h0.1
      show containsPat [x, y] (c :: ((c' :: p'') ++ q)) = false
      have hrec' := hrec
      rw [List.cons_append] at hrec'
      simp only [containsPat, Bool.or_eq_false_iff] at hrec'
      simp only [containsPat, Bool.or_eq_false_iff]
      refine ⟨?_, hrec'⟩
      show startsWith2 [x, y] (c :: c' :: (p'' ++ q)) = false
      rw [startsWith2_pair (p'' ++ q) p'']
      exact hsw

/-! ### Facts about Python stripping -/

theorem dropWhile_dropWhile (p : Char → Bool) (l : Str) :
    (l.dropWhile p).dropWhile p = l.dropWhile p := by
  induction l with
  | nil => rfl
  | cons c cs ih =>
    by_cases h : p c
    · simp [List.dropWhile_cons, h, ih]
    · simp [List.dropWhile_cons, h]

theorem head?_dropWhile_not (p : Char → Bool) (l : Str) {c : Char}
    (h : (l.dropWhile p).head? = some c) : p c = false := by
  induction l with
  | nil => simp at h
  | cons d l ih =>
    by_cases hd : p d
    · rw [List.dropWhile_cons_of_pos hd] at h
      exact ih h
    · rw [List.dropWhile_cons_of_neg hd] at h
      simp only [List.head?_cons, Option.some.injEq] at h
      subst h
      simpa using hd

theorem dropWhile_eq_self_of_head (p : Char → Bool) (l : Str)
    (h : ∀ c, l.head? = some c → p c = false) : l.dropWhile p = l := by
  cases l with
  | nil => rfl
  | cons c cs => rw [List.dropWhile_cons_of_neg (by simp [h c rfl])]

theorem rdrop_exists_append (p : Char → Bool) (u : Str) :
    ∃ w, u = (u.reverse.dropWhile p).reverse ++ w := by
  obtain ⟨t, ht⟩ : ∃ t, u.reverse = t ++ u.reverse.dropWhile p :=
    ⟨u.reverse.takeWhile p, (List.takeWhile_append_dropWhile p u.reverse).symm⟩
  refine ⟨t.reverse, ?_⟩
  have := congrArg List.reverse ht
  simpa using this

theorem rdrop_length_le (p : Char → Bool) (u : Str) :
    ((u.reverse.dropWhile p).reverse).length ≤ u.length := by
  calc ((u.reverse.dropWhile p).reverse).length
      = (u.reverse.dropWhile p).length := by simp
    _ ≤ u.reverse.length := (List.dropWhile_suffix p).sublist.length_le
    _ = u.length := by simp

theorem getLast?_rdrop_not (p : Char → Bool) (u : Str) {c : Char}
    (h : ((u.reverse.dropWhile p).reverse).getLast? = some c) : p c = false := by
  rw [List.getLast?_reverse] at h
  exact head?_dropWhile_not p u.reverse h

theorem rdrop_rdrop (p : Char → Bool) (u : Str) :
    (((u.reverse.dropWhile p).reverse).reverse.dropWhile p).reverse =
      (u.reverse.dropWhile p).reverse := by
  rw [List.reverse_reverse, dropWhile_dropWhile]

theorem head?_of_exists_append {l t : Str} (h : ∃ w, t = l ++ w) :
    l.head? = none ∨ l.head? = t.head? := by
  obtain ⟨w, rfl⟩ := h
  cases l with
  | nil => exact Or.inl rfl
  | cons c l' => exact Or.inr rfl

theorem pyStrip_fix_parts {s : Str} (h : pyStrip s = s) :
    lstripWs s = s ∧ rstripWs s = s := by
  have h1 : (lstripWs s).length ≤ s.length :=
    (List.dropWhile_suffix isSpace).sublist.length_le
  have h2 : (pyStrip s).length ≤ (lstripWs s).length :=
    rdrop_length_le isSpace (lstripWs s)
  rw [h] at h2
  have hlen : (lstripWs s).length = s.length := Nat.le_antisymm h1 h2
  have hl : lstripWs s = s := (List.dropWhile_suffix isSpace).eq_of_length hlen
  refine ⟨hl, ?_⟩
  calc rstripWs s = rstripWs (lstripWs s) := by rw [hl]
    _ = s := h

theorem pyStrip_head_not_space {s : Str} (h : pyStrip s = s) {c : Char}
    (hc : s.head? = some c) : isSpace c = false := by
  have hl := (pyStrip_fix_parts h).1
  rw [← hl] at hc
  exact head?_dropWhile_not isSpace s hc

theorem pyStrip_getLast_not_space {s : Str} (h : pyStrip s = s) {c : Char}
    (hc : s.getLast? = some c) : isSpace c = false := by
  have hr := (pyStrip_fix_parts h).2
  rw [← hr] at hc
  exact getLast?_rdrop_not isSpace s hc

theorem pyStrip_idem (s : Str) : pyStrip (pyStrip s) = pyStrip s := by
  have hpre : ∃ w, lstripWs s = pyStrip s ++ w :=
    rdrop_exists_append isSpace (lstripWs s)
  have hhead : ∀ c, (pyStrip s).head? = some c → isSpace c = false := by
    intro c hc
    rcases head?_of_exists_append hpre with h | h
    · rw [h] at hc; cases hc
    · rw [h] at hc; exact head?_dropWhile_not isSpace s hc
  have hl : lstripWs (pyStrip s) = pyStrip s :=
    dropWhile_eq_self_of_head _ _ hhead
  show rstripWs (lstripWs (pyStrip s)) = pyStrip s
  rw [hl]
  exact rdrop_rdrop isSpace (lstripWs s)

theorem pyStrip_occurs (s : Str) : ∃ u w, s = u ++ pyStrip s ++ w := by
  obtain ⟨w, hw⟩ := rdrop_exists_append isSpace (lstripWs s)
  refine ⟨s.takeWhile isSpace, w, ?_⟩
  calc s = s.takeWhile isSpace ++ s.dropWhile isSpace :=
        (List.takeWhile_append_dropWhile isSpace s).symm
    _ = s.takeWhile isSpace ++ (pyStrip s ++ w) := by
        rw [show s.dropWhile isSpace = pyStrip s ++ w from hw]
    _ = s.takeWhile isSpace ++ pyStrip s ++ w := by rw [List.append_assoc]

theorem containsPat_pyStrip_false {pat s : Str}
    (h : containsPat pat s = false) : containsPat pat (pyStrip s) = false := by
  cases hc : containsPat pat (pyStrip s) with
  | false => rfl
  | true =>
    exfalso
    rcases pyStrip_occurs s with ⟨u, w, hs⟩
    have htrue := containsPat_of_occurs u w hc
    rw [← hs] at htrue
    exact absurd htrue (by simp [h])

theorem pyStrip_cons_space {c : Char} (hc : isSpace c = true) (s : Str) :
    pyStrip (c :: s) = pyStrip s := by
  show rstripWs (lstripWs (c :: s)) = rstripWs (lstripWs s)
  rw [show lstripWs (c :: s) = lstripWs s from List.dropWhile_cons_of_pos hc]

theorem rstripWs_append_space {c : Char} (hc : isSpace c = true) (l : Str) :
    rstripWs (l ++ [c]) = rstripWs l := by
  show ((l ++ [c]).reverse.dropWhile isSpace).reverse =
    (l.reverse.dropWhile isSpace).reverse
  rw [List.reverse_append]
  simp only [List.reverse_cons, List.reverse_nil, List.nil_append,
    List.singleton_append]
  rw [List.dropWhile_cons_of_pos hc]

theorem pyStrip_append_space {c : Char} (hc : isSpace c = true) (s : Str) :
    pyStrip (s ++ [c]) = pyStrip s := by
  by_cases h : lstripWs s = []
  · have hall : lstripWs (s ++ [c]) = [] := by
      rw [show lstripWs (s ++ [c]) = (s ++ [c]).dropWhile isSpace from rfl,
        List.dropWhile_append, show List.dropWhile isSpace s = [] from h]
      simp [List.dropWhile_cons_of_pos hc]
    show rstripWs (lstripWs (s ++ [c])) = rstripWs (lstripWs s)
    rw [hall, h]
  · have happ : lstripWs (s ++ [c]) = lstripWs s ++ [c] := by
      rw [show lstripWs (s ++ [c]) = (s ++ [c]).dropWhile isSpace from rfl,
        List.dropWhile_append]
      simp only [List.isEmpty_iff]
      rw [if_neg (show ¬List.dropWhile isSpace s = [] from h)]
      rfl
    show rstripWs (lstripWs (s ++ [c])) = rstripWs (lstripWs s)
    rw [happ, rstripWs_append_space hc]

/-! ### Facts about the two-character splitter -/

theorem pySplit2_ne_nil (a b : Char) (s : Str) : pySplit2 a b s ≠ [] := by
  induction s using pySplit2.induct a b with
  | case1 => simp [pySplit2]
  | case2 c => simp [pySplit2]
  | case3 c d rest h ih => simp [pySplit2, h.1, h.2]
  | case4 c d rest h h2 ih => simp [pySplit2, h, h2]
  | case5 c d rest h p ps h2 ih => simp [pySplit2, h, h2]

theorem pySplit2_sep_cons (a b : Char) (q : Str) :
    pySplit2 a b (a :: b :: q) = [] :: pySplit2 a b q := by
  simp [pySplit2]

/-- A string free of the separator is returned whole by the splitter. -/
theorem pySplit2_eq_single {a b : Char} {s : Str}
    (h : containsPat [a, b] s = false) : pySplit2 a b s = [s] := by
  induction s using pySplit2.induct a b with
  | case1 => rfl
  | case2 c => rfl
  | case3 c d rest hab ih =>
    exfalso
    have : containsPat [a, b] (c :: d :: rest) = true := by
      simp [containsPat, startsWith2, hab.1.symm, hab.2.symm]
    simp [this] at h
  | case4 c d rest hab h2 ih => exact absurd h2 (pySplit2_ne_nil a b (d :: rest))
  | case5 c d rest hab p ps h2 ih =>
    have hrest : containsPat [a, b] (d :: rest) = false := containsPat_cons_false h
    have := ih hrest
    rw [h2] at this
    obtain ⟨hp, hps⟩ : p = d :: rest ∧ ps = [] := by
      injection this with h1 h2'
      exact ⟨h1, h2'⟩
    subst hp; subst hps
    simp [pySplit2, hab, h2]

/-- The head segment of the splitter output starts its input string. -/
theorem pySplit2_head_append {a b : Char} {s p : Str} {ps : List Str}
    (h : pySplit2 a b s = p :: ps) : ∃ w, s = p ++ w := by
  induction s using pySplit2.induct a b generalizing p ps with
  | case1 =>
    simp [pySplit2] at h
    exact ⟨[], by simp [h.1.symm]⟩
  | case2 c =>
    simp [pySplit2] at h
    exact ⟨[], by simp [h.1.symm]⟩
  | case3 c d rest hab ih =>
    rw [show pySplit2 a b (c :: d :: rest) = [] :: pySplit2 a b rest by
      simp [pySplit2, hab.1, hab.2]] at h
    injection h with h1 h2
    exact ⟨c :: d :: rest, by simp [h1.symm]⟩
  | case4 c d rest hab h2 ih => exact absurd h2 (pySplit2_ne_nil a b (d :: rest))
  | case5 c d rest hab p0 ps0 h2 ih =>
    rw [show pySplit2 a b (c :: d :: rest) = (c :: p0) :: ps0 by
      simp [pySplit2, hab, h2]] at h
    injection h with h1 h2'
    obtain ⟨w, hw⟩ := ih h2
    exact ⟨w, by rw [← h1]; simpa using congrArg (c :: ·) hw⟩

/-- Segments produced by the splitter never contain the separator. -/
theorem containsPat_of_mem_pySplit2 {a b : Char} {s q : Str}
    (hq : q ∈ pySplit2 a b s) : containsPat [a, b] q = false := by
  induction s using pySplit2.induct a b generalizing q with
  | case1 =>
    simp [pySplit2] at hq
    subst hq
    simp [containsPat, startsWith2]
  | case2 c =>
    simp [pySplit2] at hq
    subst hq
    exact containsPat_single
  | case3 c d rest hab ih =>
    rw [show pySplit2 a b (c :: d :: rest) = [] :: pySplit2 a b rest by
      simp [pySplit2, hab.1, hab.2]] at hq
    rcases List.mem_cons.mp hq with h | h
    · subst h; simp [containsPat, startsWith2]
    · exact ih h
  | case4 c d rest hab h2 ih => exact absurd h2 (pySplit2_ne_nil a b (d :: rest))
  | case5 c d rest hab p0 ps0 h2 ih =>
    rw [show pySplit2 a b (c :: d :: rest) = (c :: p0) :: ps0 by
      simp [pySplit2, hab, h2]] at hq
    rcases List.mem_cons.mp hq with h | h
    · subst h
      have hp0 : containsPat [a, b] p0 = false := ih (by rw [h2]; simp)
      simp only [containsPat, Bool.or_eq_false_iff]
      refine ⟨?_, hp0⟩
      cases p0 with
      | nil => simp [startsWith2]
      | cons e p0' =>
        have hd : d = e := by
          obtain ⟨w, hw⟩ := pySplit2_head_append h2
          have hh := congrArg List.head? hw
          simp at hh
          exact hh
        subst hd
        simp only [startsWith2, Bool.and_eq_false_iff]
        by_cases hac : a = c
        · by_cases hbd : b = d
          · exact absurd ⟨hac.symm, hbd.symm⟩ hab
          · right; left; simpa using hbd
        · left; simpa using hac
    · exact ih (by rw [h2]; exact List.mem_cons_of_mem _ h)

/-- Every segment of the splitter output occurs contiguously in the input. -/
theorem pySplit2_mem_occurs {a b : Char} {s q : Str}
    (hq : q ∈ pySplit2 a b s) : ∃ u w, s = u ++ q ++ w := by
  induction s using pySplit2.induct a b generalizing q with
  | case1 =>
    simp [pySplit2] at hq
    subst hq
    exact ⟨[], [], rfl⟩
  | case2 c =>
    simp [pySplit2] at hq
    subst hq
    exact ⟨[], [], rfl⟩
  | case3 c d rest hab ih =>
    rw [show pySplit2 a b (c :: d :: rest) = [] :: pySplit2 a b rest by
      simp [pySplit2, hab.1, hab.2]] at hq
    rcases List.mem_cons.mp hq with h | h
    · subst h; exact ⟨[], c :: d :: rest, rfl⟩
    · obtain ⟨u, w, huw⟩ := ih h
      exact ⟨c :: d :: u, w, by simp [huw]⟩
  | case4 c d rest hab h2 ih => exact absurd h2 (pySplit2_ne_nil a b (d :: rest))
  | case5 c d rest hab p0 ps0 h2 ih =>
    rw [show pySplit2 a b (c :: d :: rest) = (c :: p0) :: ps0 by
      simp [pySplit2, hab, h2]] at hq
    rcases List.mem_cons.mp hq with h | h
    · subst h
      obtain ⟨w, hw⟩ := pySplit2_head_append h2
      exact ⟨[], w, by simp [hw]⟩
    · obtain ⟨u, w, huw⟩ := ih (by rw [h2]; exact List.mem_cons_of_mem _ h)
      exact ⟨c :: u, w, by simp [huw]⟩

/-- An input containing the separator splits into at least two segments. -/
theorem two_le_length_pySplit2 {a b : Char} {s : Str}
    (h : containsPat [a, b] s = true) : 2 ≤ (pySplit2 a b s).length := by
  induction s using pySplit2.induct a b with
  | case1 => simp [containsPat, startsWith2] at h
  | case2 c => simp [containsPat, startsWith2] at h
  | case3 c d rest hab ih =>
    obtain ⟨rfl, rfl⟩ := hab
    rw [pySplit2_sep_cons]
    have := List.length_pos.mpr (pySplit2_ne_nil c d rest)
    simpa using this
  | case4 c d rest hab h2 ih => exact absurd h2 (pySplit2_ne_nil a b (d :: rest))
  | case5 c d rest hab p0 ps0 h2 ih =>
    have hsw : startsWith2 [a, b] (c :: d :: rest) = false := by
      simp only [startsWith2, Bool.and_eq_false_iff]
      by_cases hac : a = c
      · by_cases hbd : b = d
        · exact absurd ⟨hac.symm, hbd.symm⟩ hab
        · right; left; simpa using hbd
      · left; simpa using hac
    have hrest : containsPat [a, b] (d :: rest) = true := by
      have h0 := h
      simp only [containsPat, Bool.or_eq_true] at h0
      rcases h0 with h0 | h0
      · rw [hsw] at h0; simp at h0
      · simp only [containsPat, Bool.or_eq_true]
        exact h0
    have := ih hrest
    rw [h2] at this
    rw [show pySplit2 a b (c :: d :: rest) = (c :: p0) :: ps0 by
      simp [pySplit2, hab, h2]]
    simpa using this

/-- Splitting skips over a separator-free chunk glued onto the front,
provided the separator does not appear across the boundary either
(`p ++ q.take 1` is separator-free). -/
theorem pySplit2_append_of_clean {a b : Char} {p q h0 : Str} {t : List Str}
    (hclean : containsPat [a, b] (p ++ q.take 1) = false)
    (hq : pySplit2 a b q = h0 :: t) :
    pySplit2 a b (p ++ q) = (p ++ h0) :: t := by
  induction p generalizing q h0 t with
  | nil => simpa using hq
  | cons c p' ih =>
    cases p' with
    | nil =>
      cases q with
      | nil =>
        simp only [pySplit2] at hq
        injection hq with h1 h2
        subst h1; subst h2
        rfl
      | cons d q' =>
        have hnab : ¬(c = a ∧ d = b) := by
          intro ⟨hca, hdb⟩
          have h1 : containsPat [a, b] [c, d] = true := by
            simp [containsPat, startsWith2, hca, hdb]
          have h2' : containsPat [a, b] [c, d] = false := by simpa using hclean
          rw [h1] at h2'
          simp at h2'
        show pySplit2 a b (c :: d :: q') = ([c] ++ h0) :: t
        rw [show pySplit2 a b (c :: d :: q') =
          match pySplit2 a b (d :: q') with
          | [] => [[c]]
          | p :: ps => (c :: p) :: ps by simp [pySplit2, hnab]]
        rw [hq]
        rfl
    | cons c' p'' =>
      have hnab : ¬(c = a ∧ c' = b) := by
        intro ⟨hca, hcb⟩
        have h1 : startsWith2 [a, b] (c :: c' :: (p'' ++ q.take 1)) = true := by
          simp [startsWith2, hca, hcb]
        have h2' := hclean
        rw [show (c :: c' :: p'') ++ q.take 1 = c :: c' :: (p'' ++ q.take 1) by
          simp] at h2'
        simp only [containsPat, Bool.or_eq_false_iff] at h2'
        rw [h1] at h2'
        simp at h2'
      have hclean' : containsPat [a, b] ((c' :: p'') ++ q.take 1) = false := by
        have := hclean
        rw [show (c :: c' :: p'') ++ q.take 1 = c :: ((c' :: p'') ++ q.take 1) by
          simp] at this
        exact containsPat_cons_false this
      have hrec := ih hclean' hq
      show pySplit2 a b (c :: ((c' :: p'') ++ q)) = ((c :: c' :: p'') ++ h0) :: t
      rw [show (c' :: p'') ++ q = c' :: (p'' ++ q) by simp] at hrec ⊢
      rw [show pySplit2 a b (c :: c' :: (p'' ++ q)) =
        match pySplit2 a b (c' :: (p'' ++ q)) with
        | [] => [[c]]
        | p :: ps => (c :: p) :: ps by simp [pySplit2, hnab]]
      rw [hrec]
      simp

/-! ### Facts about the one-character splitter -/

theorem pySplit1_ne_nil (a : Char) (s : Str) : pySplit1 a s ≠ [] := by
  induction s with
  | nil => simp [pySplit1]
  | cons c cs ih =>
    by_cases h : c = a
    · simp [pySplit1, h]
    · cases h2 : pySplit1 a cs with
      | nil => exact absurd h2 ih
      | cons p ps => simp [pySplit1, h, h2]

/-- The first segment of a one-character split is `takeWhile (· != a)`. -/
theorem headD_pySplit1 (a : Char) (s : Str) :
    List.headD (pySplit1 a s) [] = s.takeWhile (fun c => c != a) := by
  induction s with
  | nil => rfl
  | cons c cs ih =>
    by_cases h : c = a
    · subst h
      simp [pySplit1, List.takeWhile_cons]
    · cases h2 : pySplit1 a cs with
      | nil => exact absurd h2 (pySplit1_ne_nil a cs)
      | cons p ps =>
        rw [h2] at ih
        simp only [List.headD_cons] at ih
        rw [show pySplit1 a (c :: cs) = (c :: p) :: ps by simp [pySplit1, h, h2]]
        simp [List.takeWhile_cons, h, ← ih]

/-! ### Equations for joining -/

theorem intercalate_nil (sep : Str) : List.intercalate sep ([] : List Str) = [] :=
  rfl

theorem intercalate_single (sep p : Str) : List.intercalate sep [p] = p := by
  simp [List.intercalate]

theorem intercalate_cons_cons (sep x y : Str) (t : List Str) :
    List.intercalate sep (x :: y :: t) =
      x ++ sep ++ List.intercalate sep (y :: t) := by
  simp [List.intercalate]

/-- A one-character join of pattern-free parts is pattern-free, when neither
pattern character matches the separator. -/
theorem containsPat2_intercalate {x y sepc : Char} {ps : List Str}
    (hx : x ≠ sepc) (hy : y ≠ sepc)
    (hall : ∀ p ∈ ps, containsPat [x, y] p = false) :
    containsPat [x, y] (List.intercalate [sepc] ps) = false := by
  induction ps with
  | nil => simp [containsPat, startsWith2]
  | cons p t ih =>
    cases t with
    | nil =>
      rw [intercalate_single]
      exact hall p (by simp)
    | cons q t' =>
      rw [intercalate_cons_cons, List.append_assoc]
      have hq : containsPat [x, y] ([sepc] ++ List.intercalate [sepc] (q :: t')) =
          false := by
        show containsPat [x, y] (sepc :: List.intercalate [sepc] (q :: t')) = false
        simp only [containsPat, Bool.or_eq_false_iff]
        constructor
        · cases hI : List.intercalate [sepc] (q :: t') with
          | nil => simp [startsWith2]
          | cons e l' =>
            simp only [startsWith2, Bool.and_eq_false_iff]
            left
            simpa using hx
        · exact ih (fun r hr => hall r (List.mem_cons_of_mem _ hr))
      refine containsPat2_append (hall p (by simp)) hq ?_
      rintro ⟨-, hhead⟩
      simp only [List.singleton_append, List.head?_cons, Option.some.injEq] at hhead
      exact hy hhead.symm

/-! ### Facts about the deduplication pass -/

/-- The deduplication pass is exactly Mathlib's `destutter'` of the stripped
texts (relative to a last kept value). -/
theorem dedupTexts_destutter' (l : List Str) (a : Str) :
    List.destutter' (· ≠ ·) a (l.map pyStrip) = a :: dedupTexts (some a) l := by
  induction l generalizing a with
  | nil => rfl
  | cons s rest ih =>
    by_cases h : a = pyStrip s
    · rw [List.map_cons, List.destutter']
      rw [if_neg (by simpa using h)]
      rw [show dedupTexts (some a) (s :: rest) = dedupTexts (some a) rest by
        simp [dedupTexts, h]]
      exact ih a
    · rw [List.map_cons, List.destutter']
      rw [if_pos (by simpa using h)]
      rw [show dedupTexts (some a) (s :: rest) =
        pyStrip s :: dedupTexts (some (pyStrip s)) rest by
        simp [dedupTexts]
        intro hc
        exact absurd hc h]
      rw [ih (pyStrip s)]

/-- The deduplication pass is exactly Mathlib's adjacent-deduplication
`destutter (· ≠ ·)` of the stripped texts. -/
theorem dedupTexts_destutter (l : List Str) :
    dedupTexts none l = List.destutter (· ≠ ·) (l.map pyStrip) := by
  cases l with
  | nil => rfl
  | cons s rest =>
    rw [List.map_cons, List.destutter, dedupTexts_destutter' rest (pyStrip s)]
    simp [dedupTexts]

theorem dedupTexts_skip (s : Str) (rest : List Str) :
    dedupTexts (some (pyStrip s)) (s :: rest) =
      dedupTexts (some (pyStrip s)) rest := by
  simp [dedupTexts]

theorem dedupTexts_replicate_aux (s : Str) (rest : List Str) (n : Nat) :
    dedupTexts (some (pyStrip s)) (List.replicate n s ++ rest) =
      dedupTexts (some (pyStrip s)) rest := by
  induction n with
  | zero => rfl
  | succ n ih =>
    rw [show List.replicate (n + 1) s ++ rest =
      s :: (List.replicate n s ++ rest) by simp [List.replicate_succ]]
    rw [dedupTexts_skip]
    exact ih

/-- A run of equal fragments collapses to a single occurrence. -/
theorem dedupTexts_replicate (s : Str) (rest : List Str) (n : Nat) :
    dedupTexts none (List.replicate (n + 1) s ++ rest) =
      dedupTexts none (s :: rest) := by
  rw [show List.replicate (n + 1) s ++ rest =
    s :: (List.replicate n s ++ rest) by simp [List.replicate_succ]]
  rw [show dedupTexts none (s :: (List.replicate n s ++ rest)) =
    pyStrip s :: dedupTexts (some (pyStrip s)) (List.replicate n s ++ rest) by
    simp [dedupTexts]]
  rw [dedupTexts_replicate_aux]
  simp [dedupTexts]

theorem dedupTexts_head_ne (l : List Str) (a : Str) {x : Str}
    (hx : (dedupTexts (some a) l).head? = some x) : x ≠ a := by
  induction l generalizing a with
  | nil => simp [dedupTexts] at hx
  | cons s rest ih =>
    by_cases h : a = pyStrip s
    · rw [show dedupTexts (some a) (s :: rest) = dedupTexts (some a) rest by
        simp [dedupTexts, h]] at hx
      exact ih a hx
    · rw [show dedupTexts (some a) (s :: rest) =
        pyStrip s :: dedupTexts (some (pyStrip s)) rest by
        simp [dedupTexts]
        intro hc
        exact absurd hc h] at hx
      simp only [List.head?_cons, Option.some.injEq] at hx
      subst hx
      exact fun hc => h hc.symm

/-- No two adjacent retained texts are equal. -/
theorem dedupTexts_chain' (l : List Str) (last : Option Str) :
    List.Chain' (· ≠ ·) (dedupTexts last l) := by
  induction l generalizing last with
  | nil => simp [dedupTexts]
  | cons s rest ih =>
    by_cases h : last = some (pyStrip s)
    · rw [show dedupTexts last (s :: rest) = dedupTexts last rest by
        simp [dedupTexts, h]]
      exact ih last
    · rw [show dedupTexts last (s :: rest) =
        pyStrip s :: dedupTexts (some (pyStrip s)) rest by simp [dedupTexts, h]]
      rw [List.chain'_cons']
      refine ⟨?_, ih (some (pyStrip s))⟩
      intro y hy
      exact (dedupTexts_head_ne rest (pyStrip s) hy).symm

/-- Every retained text is the stripped text of some input fragment. -/
theorem dedupTexts_mem (l : List Str) (last : Option Str) {x : Str}
    (hx : x ∈ dedupTexts last l) : ∃ t ∈ l, x = pyStrip t := by
  induction l generalizing last with
  | nil => simp [dedupTexts] at hx
  | cons s rest ih =>
    by_cases h : last = some (pyStrip s)
    · rw [show dedupTexts last (s :: rest) = dedupTexts last rest by
        simp [dedupTexts, h]] at hx
      obtain ⟨t, ht, hxt⟩ := ih last hx
      exact ⟨t, List.mem_cons_of_mem _ ht, hxt⟩
    · rw [show dedupTexts last (s :: rest) =
        pyStrip s :: dedupTexts (some (pyStrip s)) rest by
        simp [dedupTexts, h]] at hx
      rcases List.mem_cons.mp hx with h1 | h1
      · exact ⟨s, by simp, h1⟩
      · obtain ⟨t, ht, hxt⟩ := ih (some (pyStrip s)) h1
        exact ⟨t, List.mem_cons_of_mem _ ht, hxt⟩

/-- On an already-stripped list with no adjacent duplicates the deduplication
pass is the identity. -/
theorem dedupTexts_eq_self (l : List Str) (last : Option Str)
    (hfix : ∀ x ∈ l, pyStrip x = x) (hchain : List.Chain' (· ≠ ·) l)
    (hlast : ∀ c, last = some c → l.head? ≠ some c) :
    dedupTexts last l = l := by
  induction l generalizing last with
  | nil => rfl
  | cons s rest ih =>
    have hs : pyStrip s = s := hfix s (by simp)
    have hne : last ≠ some (pyStrip s) := by
      intro hc
      exact hlast (pyStrip s) hc (by simp [hs])
    rw [show dedupTexts last (s :: rest) =
      pyStrip s :: dedupTexts (some (pyStrip s)) rest by simp [dedupTexts, hne]]
    rw [hs]
    congr 1
    refine ih (some s) (fun x hx => hfix x (List.mem_cons_of_mem _ hx))
      hchain.tail ?_
    intro c hc hhead
    have h2 : s = c := by injection hc
    exact absurd h2 ((List.chain'_cons'.mp hchain).1 c hhead)

/-- Interspersing a foreign separator yields no adjacent duplicates. -/
theorem chain'_ne_intersperse (sep : Str) (ps : List Str)
    (h : ∀ p ∈ ps, p ≠ sep) :
    List.Chain' (· ≠ ·) (List.intersperse sep ps) := by
  induction ps with
  | nil => simp
  | cons p t ih =>
    cases t with
    | nil => simp
    | cons q t' =>
      rw [List.intersperse_cons₂, List.chain'_cons']
      constructor
      · intro y hy
        simp only [List.head?_cons, Option.mem_def, Option.some.injEq] at hy
        subst hy
        exact h p (by simp)
      · rw [List.chain'_cons']
        refine ⟨?_, ih (fun r hr => h r (List.mem_cons_of_mem _ hr))⟩
        intro y hy
        have hhead : (List.intersperse sep (q :: t')).head? = some q := by
          cases t' <;> simp
        rw [hhead] at hy
        simp only [Option.mem_def, Option.some.injEq] at hy
        subst hy
        exact (h q (by simp [List.mem_cons])).symm

/-- Splitting the `[a, a]` join of clean parts recovers the parts: no part
contains the separator and no part ends with the separator character. -/
theorem pySplit2_intercalate_self {a : Char} (ps : List Str) (hne : ps ≠ [])
    (hall : ∀ p ∈ ps, containsPat [a, a] p = false ∧ p.getLast? ≠ some a) :
    pySplit2 a a (List.intercalate [a, a] ps) = ps := by
  induction ps with
  | nil => exact absurd rfl hne
  | cons p t ih =>
    cases t with
    | nil =>
      rw [intercalate_single]
      exact pySplit2_eq_single (hall p (by simp)).1
    | cons q t' =>
      rw [intercalate_cons_cons, List.append_assoc]
      have hq : pySplit2 a a ([a, a] ++ List.intercalate [a, a] (q :: t')) =
          [] :: (q :: t') := by
        show pySplit2 a a (a :: a :: List.intercalate [a, a] (q :: t')) = _
        rw [pySplit2_sep_cons]
        rw [ih (by simp) (fun r hr => hall r (List.mem_cons_of_mem _ hr))]
      have hclean : containsPat [a, a]
          (p ++ ([a, a] ++ List.intercalate [a, a] (q :: t')).take 1) = false := by
        rw [show ([a, a] ++ List.intercalate [a, a] (q :: t')).take 1 = [a] from
          rfl]
        refine containsPat2_append (hall p (by simp)).1 containsPat_single ?_
        rintro ⟨hlast, -⟩
        exact (hall p (by simp)).2 hlast
      rw [pySplit2_append_of_clean hclean hq]
      simp

/-! ### Re-feeding the formatter its own paragraphs with delimiters -/

/-- The flat text obtained when the paragraphs are re-fed with `">>"`
delimiters: `p₁ ++ " >> " ++ p₂ ++ " >> " ++ ⋯`. -/
def glueGG : List Str → Str
  | [] => []
  | [p] => p
  | p :: q :: t => p ++ (' ' :: '>' :: '>' :: ' ' :: glueGG (q :: t))

/-- The space-padded segments produced by splitting `glueGG` on `">>"`,
from the second segment on. -/
def paddedTail : List Str → List Str
  | [] => []
  | [p] => [' ' :: p]
  | p :: q :: t => (' ' :: (p ++ [' '])) :: paddedTail (q :: t)

/-- All space-padded segments produced by splitting `glueGG` on `">>"`. -/
def padded : List Str → List Str
  | [] => [[]]
  | [p] => [p]
  | p :: q :: t => (p ++ [' ']) :: paddedTail (q :: t)

theorem intercalate_intersperse_glueGG (ps : List Str) :
    List.intercalate [' '] (List.intersperse ['>', '>'] ps) = glueGG ps := by
  induction ps with
  | nil => rfl
  | cons p t ih =>
    cases t with
    | nil => simp [glueGG, intercalate_single]
    | cons q t' =>
      rw [List.intersperse_cons₂, intercalate_cons_cons]
      obtain ⟨y0, t0, hqq⟩ :
          ∃ y0 t0, List.intersperse ['>', '>'] (q :: t') = y0 :: t0 := by
        cases t' <;> exact ⟨_, _, rfl⟩
      rw [hqq, intercalate_cons_cons, ← hqq, ih]
      show p ++ [' '] ++ (['>', '>'] ++ ([' '] ++ glueGG (q :: t'))) =
        glueGG (p :: q :: t')
      rw [show glueGG (p :: q :: t') =
        p ++ (' ' :: '>' :: '>' :: ' ' :: glueGG (q :: t')) from rfl]
      simp

theorem containsPat_pair_of_ne {x y c d : Char} (h : x ≠ c) :
    containsPat [x, y] [c, d] = false := by
  simp [containsPat, startsWith2, h]

/-- Splitting the glued text on `">>"` yields exactly the space-padded
segments, when every part is `">>"`-free and non-empty. -/
theorem pySplit2_glueGG (ps : List Str)
    (hall : ∀ p ∈ ps, containsPat ['>', '>'] p = false ∧ p ≠ []) :
    pySplit2 '>' '>' (glueGG ps) = padded ps ∧
      (ps ≠ [] → pySplit2 '>' '>' (' ' :: glueGG ps) = paddedTail ps) := by
  induction ps with
  | nil => exact ⟨rfl, fun h => absurd rfl h⟩
  | cons p t ih =>
    have hP : pySplit2 '>' '>' (glueGG (p :: t)) = padded (p :: t) := by
      cases t with
      | nil =>
        show pySplit2 '>' '>' p = [p]
        exact pySplit2_eq_single (hall p (by simp)).1
      | cons q t' =>
        have ihQ := (ih (fun r hr => hall r (List.mem_cons_of_mem _ hr))).2
          (by simp)
        have hX : pySplit2 '>' '>' ('>' :: '>' :: (' ' :: glueGG (q :: t'))) =
            [] :: paddedTail (q :: t') := by
          rw [pySplit2_sep_cons, ihQ]
        have hq0 : pySplit2 '>' '>'
            ([' '] ++ ('>' :: '>' :: (' ' :: glueGG (q :: t')))) =
            [' '] :: paddedTail (q :: t') := by
          have hclean : containsPat ['>', '>']
              ([' '] ++ ('>' :: '>' :: (' ' :: glueGG (q :: t'))).take 1) =
              false := by
            rw [show ('>' :: '>' :: (' ' :: glueGG (q :: t'))).take 1 = ['>']
              from rfl]
            exact containsPat_pair_of_ne (by decide)
          have := pySplit2_append_of_clean hclean hX
          simpa using this
        have hclean2 : containsPat ['>', '>']
            (p ++ (' ' :: '>' :: '>' :: ' ' :: glueGG (q :: t')).take 1) =
            false := by
          rw [show (' ' :: '>' :: '>' :: ' ' :: glueGG (q :: t')).take 1 = [' ']
            from rfl]
          refine containsPat2_append (hall p (by simp)).1 containsPat_single ?_
          rintro ⟨-, hh⟩
          simp at hh
        have := pySplit2_append_of_clean hclean2
          (show pySplit2 '>' '>' (' ' :: '>' :: '>' :: ' ' :: glueGG (q :: t')) =
            [' '] :: paddedTail (q :: t') by simpa using hq0)
        rw [show glueGG (p :: q :: t') =
          p ++ (' ' :: '>' :: '>' :: ' ' :: glueGG (q :: t')) from rfl]
        rw [this]
        rfl
    refine ⟨hP, fun _ => ?_⟩
    obtain ⟨c0, prest, hp0⟩ : ∃ c0 prest, p = c0 :: prest := by
      cases hpp : p with
      | nil => exact absurd hpp (hall p (by simp)).2
      | cons c0 prest => exact ⟨c0, prest, rfl⟩
    have htake : (glueGG (p :: t)).take 1 = [c0] := by
      cases t with
      | nil => rw [show glueGG [p] = p from rfl, hp0]; rfl
      | cons q t' =>
        rw [show glueGG (p :: q :: t') =
          p ++ (' ' :: '>' :: '>' :: ' ' :: glueGG (q :: t')) from rfl, hp0]
        rfl
    have hclean : containsPat ['>', '>'] ([' '] ++ (glueGG (p :: t)).take 1) =
        false := by
      rw [htake]
      exact containsPat_pair_of_ne (by decide)
    cases t with
    | nil =>
      have := pySplit2_append_of_clean hclean
        (show pySplit2 '>' '>' (glueGG [p]) = p :: [] from hP)
      show pySplit2 '>' '>' ([' '] ++ glueGG [p]) = paddedTail [p]
      rw [this]
      rfl
    | cons q t' =>
      have := pySplit2_append_of_clean hclean
        (show pySplit2 '>' '>' (glueGG (p :: q :: t')) =
          (p ++ [' ']) :: paddedTail (q :: t') from hP)
      show pySplit2 '>' '>' ([' '] ++ glueGG (p :: q :: t')) =
        paddedTail (p :: q :: t')
      rw [this]
      rfl

theorem cleanSegs_paddedTail (ps : List Str)
    (hall : ∀ p ∈ ps, pyStrip p = p ∧ p ≠ []) :
    ((paddedTail ps).map pyStrip).filter (fun p => p ≠ []) = ps := by
  induction ps with
  | nil => rfl
  | cons p t ih =>
    cases t with
    | nil =>
      show (([' ' :: p].map pyStrip).filter (fun p => p ≠ [])) = [p]
      have h1 : pyStrip (' ' :: p) = p := by
        rw [pyStrip_cons_space (by decide) p]
        exact (hall p (by simp)).1
      simp [h1, (hall p (by simp)).2]
    | cons q t' =>
      have h1 : pyStrip (' ' :: (p ++ [' '])) = p := by
        rw [pyStrip_cons_space (by decide) (p ++ [' ']),
          pyStrip_append_space (by decide) p]
        exact (hall p (by simp)).1
      show ((((' ' :: (p ++ [' '])) :: paddedTail (q :: t')).map pyStrip).filter
        (fun p => p ≠ [])) = p :: q :: t'
      rw [List.map_cons, h1, List.filter_cons]
      rw [if_pos (by simpa using (hall p (by simp)).2)]
      rw [ih (fun r hr => hall r (List.mem_cons_of_mem _ hr))]

theorem cleanSegs_padded (ps : List Str)
    (hall : ∀ p ∈ ps, pyStrip p = p ∧ p ≠ []) :
    ((padded ps).map pyStrip).filter (fun p => p ≠ []) = ps := by
  cases ps with
  | nil => rfl
  | cons p t =>
    cases t with
    | nil =>
      show (([p].map pyStrip).filter (fun p => p ≠ [])) = [p]
      simp [(hall p (by simp)).1, (hall p (by simp)).2]
    | cons q t' =>
      have h1 : pyStrip (p ++ [' ']) = p := by
        rw [pyStrip_append_space (by decide) p]
        exact (hall p (by simp)).1
      show ((((p ++ [' ']) :: paddedTail (q :: t')).map pyStrip).filter
        (fun p => p ≠ [])) = p :: q :: t'
      rw [List.map_cons, h1, List.filter_cons]
      rw [if_pos (by simpa using (hall p (by simp)).2)]
      rw [cleanSegs_paddedTail (q :: t')
        (fun r hr => hall r (List.mem_cons_of_mem _ hr))]

/-- The paragraphs the formatter builds are stripped, non-empty and free of
the `">>"` marker. -/
theorem cleaned_paragraphs_mem (ts : List Str) {p : Str}
    (hp : p ∈ cleaned_paragraphs ts) :
    pyStrip p = p ∧ p ≠ [] ∧ containsPat ['>', '>'] p = false := by
  unfold cleaned_paragraphs at hp
  obtain ⟨hp1, hp2⟩ := List.mem_filter.mp hp
  obtain ⟨q, hq, rfl⟩ := List.mem_map.mp hp1
  exact ⟨pyStrip_idem q, by simpa using hp2,
    containsPat_pyStrip_false (containsPat_of_mem_pySplit2 hq)⟩

theorem mem_intersperse {sep x : Str} {l : List Str}
    (hx : x ∈ List.intersperse sep l) : x = sep ∨ x ∈ l := by
  induction l with
  | nil => simp at hx
  | cons p t ih =>
    cases t with
    | nil =>
      simp at hx
      exact Or.inr (by simp [hx])
    | cons q t' =>
      rw [List.intersperse_cons₂] at hx
      rcases List.mem_cons.mp hx with h | h
      · exact Or.inr (by simp [h])
      · rcases List.mem_cons.mp h with h | h
        · exact Or.inl h
        · rcases ih h with h | h
          · exact Or.inl h
          · exact Or.inr (List.mem_cons_of_mem _ h)

/-- The formatter's paragraphs never contain a blank line when no fragment's
stripped text does. -/
theorem cleaned_paragraphs_no_nn (ts : List Str)
    (hts : ∀ t ∈ ts, containsPat ['\n', '\n'] (pyStrip t) = false) {p : Str}
    (hp : p ∈ cleaned_paragraphs ts) : containsPat ['\n', '\n'] p = false := by
  unfold cleaned_paragraphs at hp
  obtain ⟨hp1, hp2⟩ := List.mem_filter.mp hp
  obtain ⟨q, hq, rfl⟩ := List.mem_map.mp hp1
  have hfull : containsPat ['\n', '\n']
      (List.intercalate [' '] (dedupTexts none ts)) = false := by
    refine containsPat2_intercalate (by decide) (by decide) ?_
    intro r hr
    obtain ⟨t0, ht0, rfl⟩ := dedupTexts_mem ts none hr
    exact hts t0 ht0
  have hq' : containsPat ['\n', '\n'] q = false := by
    obtain ⟨u, w, huw⟩ := pySplit2_mem_occurs hq
    cases hc : containsPat ['\n', '\n'] q with
    | false => rfl
    | true =>
      have hocc := containsPat_of_occurs u w hc
      rw [← huw, hfull] at hocc
      exact absurd hocc (by simp)
  exact containsPat_pyStrip_false hq'

/-- Under the same proviso, splitting the output on the blank-line delimiter
recovers exactly the formatter's paragraph list. -/
theorem format_paragraphs (ts : List Str)
    (hts : ∀ t ∈ ts, containsPat ['\n', '\n'] (pyStrip t) = false)
    (hne : cleaned_paragraphs ts ≠ []) :
    pySplit2 '\n' '\n' (format_transcript ts) = cleaned_paragraphs ts := by
  unfold format_transcript
  refine pySplit2_intercalate_self (cleaned_paragraphs ts) hne ?_
  intro p hp
  obtain ⟨hstrip, hnep, hgg⟩ := cleaned_paragraphs_mem ts hp
  refine ⟨cleaned_paragraphs_no_nn ts hts hp, ?_⟩
  intro hlast
  exact absurd (pyStrip_getLast_not_space hstrip hlast) (by decide)

/-- Formatting stripped, non-empty, marker-free paragraphs re-fed with `">>"`
delimiters reproduces their blank-line join. -/
theorem format_refeed (ps : List Str)
    (hall : ∀ p ∈ ps,
      pyStrip p = p ∧ p ≠ [] ∧ containsPat ['>', '>'] p = false) :
    format_transcript (List.intersperse ['>', '>'] ps) =
      List.intercalate ['\n', '\n'] ps := by
  have hall2 : ∀ p ∈ ps, containsPat ['>', '>'] p = false ∧ p ≠ [] :=
    fun p hp => ⟨(hall p hp).2.2, (hall p hp).2.1⟩
  have hall3 : ∀ p ∈ ps, pyStrip p = p ∧ p ≠ [] :=
    fun p hp => ⟨(hall p hp).1, (hall p hp).2.1⟩
  have hdedup : dedupTexts none (List.intersperse ['>', '>'] ps) =
      List.intersperse ['>', '>'] ps := by
    refine dedupTexts_eq_self _ none ?_ ?_ (fun c hc => by cases hc)
    · intro x hx
      rcases mem_intersperse hx with h | h
      · rw [h]; decide
      · exact (hall x h).1
    · refine chain'_ne_intersperse _ ps ?_
      intro p hp hpg
      have := (hall p hp).2.2
      rw [hpg] at this
      exact absurd this (by decide)
  unfold format_transcript cleaned_paragraphs
  rw [hdedup, intercalate_intersperse_glueGG, (pySplit2_glueGG ps hall2).1,
    cleanSegs_padded ps hall3]

/-! ### Facts about the filename sanitizer -/

theorem mem_collapseAux {c : Char} (b : Bool) (l : Str)
    (hc : c ∈ collapseAux b l) : c = '-' ∨ c ∈ l := by
  induction l generalizing b with
  | nil => simp [collapseAux] at hc
  | cons d cs ih =>
    by_cases hd : isSpaceOrDash d
    · cases b with
      | true =>
        rw [show collapseAux true (d :: cs) = collapseAux true cs by
          simp [collapseAux, hd]] at hc
        rcases ih true hc with h | h
        · exact Or.inl h
        · exact Or.inr (List.mem_cons_of_mem _ h)
      | false =>
        rw [show collapseAux false (d :: cs) = '-' :: collapseAux true cs by
          simp [collapseAux, hd]] at hc
        rcases List.mem_cons.mp hc with h | h
        · exact Or.inl h
        · rcases ih true h with h2 | h2
          · exact Or.inl h2
          · exact Or.inr (List.mem_cons_of_mem _ h2)
    · rw [show collapseAux b (d :: cs) = d :: collapseAux false cs by
        simp [collapseAux, hd]] at hc
      rcases List.mem_cons.mp hc with h | h
      · exact Or.inr (by simp [h])
      · rcases ih false h with h2 | h2
        · exact Or.inl h2
        · exact Or.inr (List.mem_cons_of_mem _ h2)

theorem mem_lstrip {p : Char → Bool} {c : Char} {l : Str}
    (hc : c ∈ l.dropWhile p) : c ∈ l :=
  (List.dropWhile_suffix p).sublist.subset hc

theorem mem_rdrop {p : Char → Bool} {c : Char} {u : Str}
    (hc : c ∈ (u.reverse.dropWhile p).reverse) : c ∈ u := by
  rw [List.mem_reverse] at hc
  have := mem_lstrip hc
  rwa [List.mem_reverse] at this

theorem head?_take_or (n : Nat) (l : Str) :
    (l.take n).head? = none ∨ (l.take n).head? = l.head? := by
  cases n with
  | zero => exact Or.inl rfl
  | succ m =>
    cases l with
    | nil => exact Or.inl rfl
    | cons c cs => exact Or.inr (by simp)

theorem head?_rstripDS_lstripDS (t2 : Str) {c : Char}
    (hc : (rstripDS (lstripDS t2)).head? = some c) : isDashSpace c = false := by
  rcases head?_of_exists_append
      (rdrop_exists_append isDashSpace (lstripDS t2)) with h | h
  · rw [show (rstripDS (lstripDS t2)).head? =
      (((lstripDS t2).reverse.dropWhile isDashSpace).reverse).head? from rfl,
      h] at hc
    cases hc
  · rw [show (rstripDS (lstripDS t2)).head? =
      (((lstripDS t2).reverse.dropWhile isDashSpace).reverse).head? from rfl,
      h] at hc
    exact head?_dropWhile_not isDashSpace t2 hc

theorem sanitize_eq (title : Str) (m : Nat) (ht : title ≠ []) :
    sanitize_filename title m =
      (if m < (rstripDS (lstripDS (collapseRuns (title.map (fun c =>
          if invalidChars.contains c then '-' else c))))).length then
        rstripDS ((rstripDS (lstripDS (collapseRuns (title.map (fun c =>
          if invalidChars.contains c then '-' else c))))).take m)
      else rstripDS (lstripDS (collapseRuns (title.map (fun c =>
        if invalidChars.contains c then '-' else c))))) := by
  simp [sanitize_filename, ht, collapseRuns]

/-- C5: for every title string and maximum length, the sanitizer's output
contains none of the invalid filename characters, never starts or ends with a
hyphen or a space, and has length at most `max_length`; and the sanitizer maps
the empty string to the empty string. -/
theorem claim_C5 (title : Str) (max_length : Nat) :
    (∀ c ∈ sanitize_filename title max_length, c ∉ invalidChars) ∧
    (sanitize_filename title max_length).head? ≠ some '-' ∧
    (sanitize_filename title max_length).head? ≠ some ' ' ∧
    (sanitize_filename title max_length).getLast? ≠ some '-' ∧
    (sanitize_filename title max_length).getLast? ≠ some ' ' ∧
    (sanitize_filename title max_length).length ≤ max_length ∧
    sanitize_filename [] max_length = [] := by
  have hempty : sanitize_filename [] max_length = [] := by
    simp [sanitize_filename]
  by_cases ht : title = []
  · subst ht
    rw [hempty]
    exact ⟨by simp, by simp, by simp, by simp, by simp, by simp, hempty⟩
  · rw [sanitize_eq title max_length ht]
    set t1 : Str :=
      title.map (fun c => if invalidChars.contains c then '-' else c) with ht1
    set T3 : Str := rstripDS (lstripDS (collapseRuns t1)) with hT3
    have hhead3 : ∀ c, T3.head? = some c → isDashSpace c = false := by
      intro c hc
      exact head?_rstripDS_lstripDS (collapseRuns t1) hc
    have hlast3 : ∀ c, T3.getLast? = some c → isDashSpace c = false := by
      intro c hc
      exact getLast?_rdrop_not isDashSpace (lstripDS (collapseRuns t1)) hc
    have hmem3 : ∀ c ∈ T3, c = '-' ∨ c ∈ t1 := by
      intro c hc
      rw [hT3] at hc
      exact mem_collapseAux false t1 (mem_lstrip (mem_rdrop hc))
    have hmem1 : ∀ c ∈ t1, c ∉ invalidChars := by
      intro c hc
      rw [ht1] at hc
      obtain ⟨x, hx, rfl⟩ := List.mem_map.mp hc
      by_cases hxc : invalidChars.contains x = true
      · rw [if_pos hxc]
        decide
      · rw [if_neg hxc]
        intro hmem
        apply hxc
        simp only [List.contains, List.elem_eq_mem, decide_eq_true_eq]
        exact hmem
    have hds_dash : ∀ c : Char, isDashSpace c = false → c ≠ '-' ∧ c ≠ ' ' := by
      intro c hc
      constructor <;> intro h <;> subst h <;> simp [isDashSpace] at hc
    by_cases hm : max_length < T3.length
    · rw [if_pos hm]
      have hhead : ∀ c, (rstripDS (T3.take max_length)).head? = some c →
          isDashSpace c = false := by
        intro c hc
        rcases head?_of_exists_append
            (rdrop_exists_append isDashSpace (T3.take max_length)) with h | h
        · rw [show (rstripDS (T3.take max_length)).head? =
            (((T3.take max_length).reverse.dropWhile isDashSpace).reverse).head?
            from rfl, h] at hc
          cases hc
        · rw [show (rstripDS (T3.take max_length)).head? =
            (((T3.take max_length).reverse.dropWhile isDashSpace).reverse).head?
            from rfl, h] at hc
          rcases head?_take_or max_length T3 with h2 | h2
          · rw [h2] at hc; cases hc
          · rw [h2] at hc; exact hhead3 c hc
      have hlast : ∀ c, (rstripDS (T3.take max_length)).getLast? = some c →
          isDashSpace c = false := fun c hc =>
        getLast?_rdrop_not isDashSpace (T3.take max_length) hc
      refine ⟨?_, ?_, ?_, ?_, ?_, ?_, hempty⟩
      · intro c hc
        have hcT3 : c ∈ T3 := List.take_subset _ _ (mem_rdrop hc)
        rcases hmem3 c hcT3 with h | h
        · subst h; decide
        · exact hmem1 c h
      · intro hc; exact absurd ((hds_dash _ (hhead _ hc)).1) (by simp)
      · intro hc; exact absurd ((hds_dash _ (hhead _ hc)).2) (by simp)
      · intro hc; exact absurd ((hds_dash _ (hlast _ hc)).1) (by simp)
      · intro hc; exact absurd ((hds_dash _ (hlast _ hc)).2) (by simp)
      · calc (rstripDS (T3.take max_length)).length
            ≤ (T3.take max_length).length :=
              rdrop_length_le isDashSpace (T3.take max_length)
          _ ≤ max_length := by rw [List.length_take]; exact Nat.min_le_left _ _
    · rw [if_neg hm]
      refine ⟨?_, ?_, ?_, ?_, ?_, ?_, hempty⟩
      · intro c hc
        rcases hmem3 c hc with h | h
        · subst h; decide
        · exact hmem1 c h
      · intro hc; exact absurd ((hds_dash _ (hhead3 _ hc)).1) (by simp)
      · intro hc; exact absurd ((hds_dash _ (hhead3 _ hc)).2) (by simp)
      · intro hc; exact absurd ((hds_dash _ (hlast3 _ hc)).1) (by simp)
      · intro hc; exact absurd ((hds_dash _ (hlast3 _ hc)).2) (by simp)
      · exact Nat.le_of_not_lt hm

/-! ### Facts about the identifier extractor -/

theorem afterLastVE_none {s : Str} (h : afterLastVE s = none) :
    pySplit2 'v' '=' s = [s] := by
  induction s using afterLastVE.induct with
  | case1 => rfl
  | case2 c => rfl
  | case3 c d rest hvd ih =>
    rw [show afterLastVE (c :: d :: rest) =
      some ((afterLastVE rest).getD rest) by simp [afterLastVE, hvd.1, hvd.2]]
      at h
    cases h
  | case4 c d rest hvd ih =>
    rw [show afterLastVE (c :: d :: rest) = afterLastVE (d :: rest) by
      simp [afterLastVE, hvd]] at h
    have hrec := ih h
    rw [show pySplit2 'v' '=' (c :: d :: rest) =
      match pySplit2 'v' '=' (d :: rest) with
      | [] => [[c]]
      | p :: ps => (c :: p) :: ps by simp [pySplit2, hvd]]
    rw [hrec]

theorem afterLastVE_some_contains {s : Str} {r : Str}
    (h : afterLastVE s = some r) : containsPat ['v', '='] s = true := by
  induction s using afterLastVE.induct with
  | case1 => cases h
  | case2 c => cases h
  | case3 c d rest hvd ih =>
    simp [containsPat, startsWith2, hvd.1, hvd.2]
  | case4 c d rest hvd ih =>
    rw [show afterLastVE (c :: d :: rest) = afterLastVE (d :: rest) by
      simp [afterLastVE, hvd]] at h
    have := ih h
    simp only [containsPat, Bool.or_eq_true]
    exact Or.inr (by simpa [containsPat] using this)

theorem getLastD_cons_irrel (q : Str) (qs : List Str) (x y : Str) :
    List.getLastD (q :: qs) x = List.getLastD (q :: qs) y := by
  cases qs with
  | nil => rfl
  | cons r rs =>
    rw [List.getLastD_cons x q (r :: rs), List.getLastD_cons y q (r :: rs)]

/-- The last `"v="`-split segment is the suffix after the last occurrence of
`"v="` (the whole string when `"v="` is absent). -/
theorem getLastD_pySplit2_afterLastVE (s : Str) :
    List.getLastD (pySplit2 'v' '=' s) [] = (afterLastVE s).getD s := by
  induction s using afterLastVE.induct with
  | case1 => rfl
  | case2 c => rfl
  | case3 c d rest hvd ih =>
    obtain ⟨rfl, rfl⟩ := hvd
    rw [show afterLastVE ('v' :: '=' :: rest) =
      some ((afterLastVE rest).getD rest) by simp [afterLastVE]]
    rw [pySplit2_sep_cons]
    rw [Option.getD_some]
    cases hsp : pySplit2 'v' '=' rest with
    | nil => exact absurd hsp (pySplit2_ne_nil _ _ rest)
    | cons p ps =>
      rw [hsp] at ih
      rw [List.getLastD_cons]
      rw [← ih]

  | case4 c d rest hvd ih =>
    rw [show afterLastVE (c :: d :: rest) = afterLastVE (d :: rest) by
      simp [afterLastVE, hvd]]
    cases hsp : pySplit2 'v' '=' (d :: rest) with
    | nil => exact absurd hsp (pySplit2_ne_nil _ _ _)
    | cons p ps =>
      rw [show pySplit2 'v' '=' (c :: d :: rest) = (c :: p) :: ps by
        simp [pySplit2, hvd, hsp]]
      rw [hsp] at ih
      cases ps with
      | nil =>
        have hnone : afterLastVE (d :: rest) = none := by
          cases ha : afterLastVE (d :: rest) with
          | none => rfl
          | some r =>
            have hcont := afterLastVE_some_contains ha
            have hlen := two_le_length_pySplit2 hcont
            rw [hsp] at hlen
            simp at hlen
        rw [hnone] at ih ⊢
        rw [Option.getD_none] at ih ⊢
        rw [show List.getLastD [p] [] = p from rfl] at ih
        rw [show List.getLastD [c :: p] [] = c :: p from rfl, ih]
      | cons q qs =>
        obtain ⟨r, hr⟩ : ∃ r, afterLastVE (d :: rest) = some r := by
          cases ha : afterLastVE (d :: rest) with
          | some r => exact ⟨r, rfl⟩
          | none =>
            have hsing := afterLastVE_none ha
            rw [hsp] at hsing
            exact absurd hsing (by simp)
        rw [hr] at ih ⊢
        rw [Option.getD_some] at ih ⊢
        rw [List.getLastD_cons] at ih ⊢
        rw [← ih]
        exact getLastD_cons_irrel q qs (c :: p) p

/-! ### The claims -/

/-- C1 (amended): the run exits with status 0 iff the transcript fetch
succeeded and (no file was requested or the file write succeeded); the
clipboard outcome never alters the exit code.  In particular a file-write
failure during the optional save exits 1, because the single `try/except`
spans the save stage. -/
theorem claim_C1_amended (env : Env) (url : Str) (out : Option Str) :
    ((get_transcript env url out).exitCode = 0 ↔
      (∃ ts, env.fetchResult = Except.ok ts) ∧
        (out = none ∨ env.writeResult = none)) ∧
    (∀ b, (get_transcript (Env.mk env.fetchResult env.titleResult b
        env.writeResult) url out).exitCode =
      (get_transcript env url out).exitCode) := by
  obtain ⟨fr, tr, cb, wr⟩ := env
  constructor
  · cases fr with
    | error e => simp [get_transcript]
    | ok ts =>
      cases out with
      | none => simp [get_transcript]
      | some f =>
        cases wr with
        | none => simp [get_transcript]
        | some m => simp [get_transcript]
  · intro b
    cases fr with
    | error e => simp [get_transcript]
    | ok ts =>
      cases out with
      | none => simp [get_transcript]
      | some f =>
        cases wr with
        | none => simp [get_transcript]
        | some m => simp [get_transcript]

/-- C1 as stated is false: a run whose fetch and formatting succeed but whose
requested file write raises exits with status 1, not 0. -/
theorem claim_C1_counterexample :
    (Env.mk (Except.ok [lit "hi"]) [] true
        (some (lit "disk full"))).fetchResult = Except.ok [lit "hi"] ∧
    (get_transcript (Env.mk (Except.ok [lit "hi"]) [] true
        (some (lit "disk full"))) (lit "u") (some (lit "t.txt"))).exitCode =
      1 :=
  ⟨rfl, by decide⟩

/-- C2: the deduplication pass keeps exactly what adjacent deduplication
(`destutter (· ≠ ·)`) of the stripped texts keeps — a stripped fragment is
dropped iff it equals the immediately preceding *retained* one — and a run of
`n + 1` identical fragments collapses to the single occurrence a lone
fragment would leave. -/
theorem claim_C2 (l : List Str) (s : Str) (rest : List Str) (n : Nat) :
    dedupTexts none l = List.destutter (· ≠ ·) (l.map pyStrip) ∧
    dedupTexts none (List.replicate (n + 1) s ++ rest) =
      dedupTexts none (s :: rest) :=
  ⟨dedupTexts_destutter l, dedupTexts_replicate s rest n⟩

/-- C3 (amended): provided no fragment's stripped text contains two
consecutive newline characters, re-feeding the formatter the blank-line-split
paragraphs of its own output, with `">>"` delimiters interspersed, reproduces
the output (hence the same paragraph list). -/
theorem claim_C3_amended (ts : List Str)
    (hts : ∀ t ∈ ts, containsPat ['\n', '\n'] (pyStrip t) = false) :
    format_transcript (List.intersperse ['>', '>']
      (pySplit2 '\n' '\n' (format_transcript ts))) = format_transcript ts := by
  by_cases hne : cleaned_paragraphs ts = []
  · have hfmt : format_transcript ts = [] := by
      unfold format_transcript
      rw [hne]
      rfl
    rw [hfmt]
    decide
  · rw [format_paragraphs ts hts hne]
    rw [format_refeed (cleaned_paragraphs ts)
      (fun _ hp => cleaned_paragraphs_mem ts hp)]
    rfl

theorem claim_C3_amended_witness :
    (∀ t ∈ [lit "Hello", lit "Hello", lit ">> big world"],
      containsPat ['\n', '\n'] (pyStrip t) = false) ∧
    format_transcript (List.intersperse ['>', '>']
      (pySplit2 '\n' '\n'
        (format_transcript [lit "Hello", lit "Hello", lit ">> big world"]))) =
      format_transcript [lit "Hello", lit "Hello", lit ">> big world"] :=
  ⟨by decide, claim_C3_amended _ (by decide)⟩

/-- C3 as stated is false: for a fragment embedding consecutive newlines,
re-feeding the output's blank-line paragraphs (with `">>"` delimiters)
changes the paragraph list. -/
theorem claim_C3_counterexample :
    pySplit2 '\n' '\n' (format_transcript (List.intersperse ['>', '>']
        (pySplit2 '\n' '\n' (format_transcript [lit "a\n\n\nb"])))) ≠
      pySplit2 '\n' '\n' (format_transcript [lit "a\n\n\nb"]) := by decide

/-- C4 (amended): every paragraph the formatter joins with the blank-line
delimiter is non-empty and stripped (hence not whitespace-only), and the
deduplicated fragment sequence has no adjacent equal texts; the claim's
stronger reading fails only when fragment text itself embeds consecutive
newlines. -/
theorem claim_C4_amended (ts : List Str) :
    (∀ p ∈ cleaned_paragraphs ts, p ≠ [] ∧ pyStrip p = p) ∧
    List.Chain' (· ≠ ·) (dedupTexts none ts) :=
  ⟨fun _ hp =>
    ⟨(cleaned_paragraphs_mem ts hp).2.1, (cleaned_paragraphs_mem ts hp).1⟩,
   dedupTexts_chain' ts none⟩

theorem claim_C4_amended_witness :
    (lit "a" ∈ cleaned_paragraphs [lit "a"]) ∧
      (lit "a" ≠ [] ∧ pyStrip (lit "a") = lit "a") :=
  ⟨by decide, (claim_C4_amended [lit "a"]).1 (lit "a") (by decide)⟩

/-- C4 as stated is false: with a fragment whose text embeds consecutive
newlines, the output contains an empty blank-line-delimited paragraph. -/
theorem claim_C4_counterexample :
    [] ∈ pySplit2 '\n' '\n' (format_transcript [lit "a\n\n\n\nb"]) := by decide

theorem claim_C5_witness :
    ('-' ∈ sanitize_filename (lit "a<b") 100) ∧ '-' ∉ invalidChars :=
  ⟨by decide, (claim_C5 (lit "a<b") 100).1 '-' (by decide)⟩

/-- C6 (amended): the extractor returns the suffix after the last occurrence
of `"v="` — the whole string when `"v="` is absent — truncated at the first
`'&'` (truncation applies on the fallback path as well); on the scenario URL
it yields `"abc123"`. -/
theorem claim_C6_amended (url : Str) :
    extract_video_id url =
      ((afterLastVE url).getD url).takeWhile (fun c => c != '&') ∧
    extract_video_id (lit "https://youtube.com/watch?v=abc123&t=5") =
      lit "abc123" := by
  constructor
  · show List.headD (pySplit1 '&' (List.getLastD (pySplit2 'v' '=' url) [])) []
      = _
    rw [getLastD_pySplit2_afterLastVE url]
    exact headD_pySplit1 '&' _
  · decide

/-- C6 as stated is false: on an input without `"v="` the extractor does not
return the whole string — it still truncates at the first `'&'`. -/
theorem claim_C6_counterexample :
    containsPat ['v', '='] (lit "a&b") = false ∧
      extract_video_id (lit "a&b") ≠ lit "a&b" :=
  ⟨by decide, by decide⟩

/-- C7: on the empty-string-sentinel path with a successful write, the
dispatcher sanitizes the fetched title and saves to
`{sanitized-title}-[{id}]-transcript.txt` when the sanitized title is
non-empty, otherwise to `{id}_transcript.txt`, reporting the title as
unavailable exactly in the fallback case. -/
theorem claim_C7 (env : Env) (url : Str) (ts : List Str)
    (hf : env.fetchResult = Except.ok ts) (hw : env.writeResult = none) :
    (get_transcript env url (some [])).savedFile =
      some (if sanitize_filename (fetch_video_title env) 100 ≠ [] then
        sanitize_filename (fetch_video_title env) 100 ++ lit "-[" ++
          extract_video_id url ++ lit "]-transcript.txt"
      else extract_video_id url ++ lit "_transcript.txt") ∧
    (Msg.titleUnavailable ∈ (get_transcript env url (some [])).messages ↔
      sanitize_filename (fetch_video_title env) 100 = []) := by
  obtain ⟨fr, tr, cb, wr⟩ := env
  have hf' : fr = Except.ok ts := hf
  have hw' : wr = none := hw
  subst hf'
  subst hw'
  by_cases hst : sanitize_filename tr 100 = []
  · refine ⟨by simp [get_transcript, fetch_video_title, hst], ?_⟩
    cases cb <;>
      simp [get_transcript, fetch_video_title, copy_to_clipboard, hst]
  · refine ⟨by simp [get_transcript, fetch_video_title, hst], ?_⟩
    cases cb <;>
      simp [get_transcript, fetch_video_title, copy_to_clipboard, hst]

theorem claim_C7_witness :
    ((Env.mk (Except.ok [lit "hi"]) (lit "My Title") true none).fetchResult =
        Except.ok [lit "hi"] ∧
      (Env.mk (Except.ok [lit "hi"]) (lit "My Title") true none).writeResult =
        none) ∧
    ((get_transcript (Env.mk (Except.ok [lit "hi"]) (lit "My Title") true none)
        (lit "https://youtube.com/watch?v=abc123") (some [])).savedFile =
      some (if sanitize_filename (fetch_video_title (Env.mk
          (Except.ok [lit "hi"]) (lit "My Title") true none)) 100 ≠ [] then
        sanitize_filename (fetch_video_title (Env.mk (Except.ok [lit "hi"])
          (lit "My Title") true none)) 100 ++ lit "-[" ++
          extract_video_id (lit "https://youtube.com/watch?v=abc123") ++
          lit "]-transcript.txt"
      else extract_video_id (lit "https://youtube.com/watch?v=abc123") ++
        lit "_transcript.txt") ∧
    (Msg.titleUnavailable ∈ (get_transcript (Env.mk (Except.ok [lit "hi"])
        (lit "My Title") true none)
        (lit "https://youtube.com/watch?v=abc123") (some [])).messages ↔
      sanitize_filename (fetch_video_title (Env.mk (Except.ok [lit "hi"])
        (lit "My Title") true none)) 100 = [])) :=
  ⟨⟨rfl, rfl⟩, claim_C7 (Env.mk (Except.ok [lit "hi"]) (lit "My Title") true
    none) (lit "https://youtube.com/watch?v=abc123") [lit "hi"] rfl rfl⟩

/-- C8: whenever the fetch fails with a message containing
`"Subtitles are disabled"`, the run prints the extra hint and exits 1. -/
theorem claim_C8 (env : Env) (url : Str) (out : Option Str) (e : Str)
    (hf : env.fetchResult = Except.error e)
    (hs : containsPat subtitlesDisabledMsg e = true) :
    (get_transcript env url out).exitCode = 1 ∧
      Msg.subtitlesHint ∈ (get_transcript env url out).messages := by
  obtain ⟨fr, tr, cb, wr⟩ := env
  have hf' : fr = Except.error e := hf
  subst hf'
  constructor
  · simp [get_transcript]
  · simp [get_transcript, hs]

theorem claim_C8_witness :
    ((Env.mk (Except.error subtitlesDisabledMsg) [] true none).fetchResult =
        Except.error subtitlesDisabledMsg ∧
      containsPat subtitlesDisabledMsg subtitlesDisabledMsg = true) ∧
    ((get_transcript (Env.mk (Except.error subtitlesDisabledMsg) [] true none)
        (lit "u") none).exitCode = 1 ∧
      Msg.subtitlesHint ∈ (get_transcript (Env.mk
        (Except.error subtitlesDisabledMsg) [] true none)
        (lit "u") none).messages) :=
  ⟨⟨rfl, by decide⟩, claim_C8 (Env.mk (Except.error subtitlesDisabledMsg) []
    true none) (lit "u") none subtitlesDisabledMsg rfl (by decide)⟩

/-- C9 (implicit): the reported paragraph count is always at least 1; when the
formatted transcript is empty the dispatcher reports word count 0 and
paragraph count 1, since the count splits the (possibly empty) clean text on
the blank-line delimiter. -/
theorem claim_C9 (env : Env) (url : Str) (out : Option Str) (ts : List Str)
    (hf : env.fetchResult = Except.ok ts) :
    Msg.paragraphs ((pySplit2 '\n' '\n' (format_transcript ts)).length) ∈
      (get_transcript env url out).messages ∧
    1 ≤ (pySplit2 '\n' '\n' (format_transcript ts)).length ∧
    (format_transcript ts = [] →
      (pyWords (format_transcript ts)).length = 0 ∧
      (pySplit2 '\n' '\n' (format_transcript ts)).length = 1) := by
  obtain ⟨fr, tr, cb, wr⟩ := env
  have hf' : fr = Except.ok ts := hf
  subst hf'
  refine ⟨?_, ?_, ?_⟩
  · cases out with
    | none => simp [get_transcript]
    | some f =>
      cases wr with
      | none => simp [get_transcript]
      | some m => simp [get_transcript]
  · simpa using
      List.length_pos.mpr (pySplit2_ne_nil '\n' '\n' (format_transcript ts))
  · intro h
    rw [h]
    exact ⟨rfl, rfl⟩

theorem claim_C9_witness :
    (Env.mk (Except.ok ([] : List Str)) [] true none).fetchResult =
        Except.ok ([] : List Str) ∧
      1 ≤ (pySplit2 '\n' '\n' (format_transcript [])).length ∧
      (pyWords (format_transcript [])).length = 0 :=
  ⟨rfl,
    (claim_C9 (Env.mk (Except.ok []) [] true none) (lit "u") none [] rfl).2.1,
    ((claim_C9 (Env.mk (Except.ok []) [] true none) (lit "u") none []
      rfl).2.2 rfl).1⟩

/-- C10 (implicit): a non-empty title made of invalid characters only
sanitizes to the empty string, so even when the title fetch succeeds with a
non-empty title, the sentinel path falls back to `{id}_transcript.txt` and
reports the title unavailable. -/
theorem claim_C10 :
    lit "???" ≠ [] ∧
    sanitize_filename (lit "???") 100 = [] ∧
    (get_transcript (Env.mk (Except.ok [lit "hi"]) (lit "???") true none)
        (lit "https://youtube.com/watch?v=abc123") (some [])).savedFile =
      some (lit "abc123_transcript.txt") ∧
    Msg.titleUnavailable ∈ (get_transcript (Env.mk (Except.ok [lit "hi"])
        (lit "???") true none) (lit "https://youtube.com/watch?v=abc123")
        (some [])).messages :=
  ⟨by decide, by decide, by decide, by decide⟩

example : format_transcript [lit "Hello", lit "Hello", lit "world"] =
    lit "Hello world" := by decide

example : format_transcript [lit "Hi", lit ">> Bye"] = lit "Hi\n\nBye" := by decide

example : sanitize_filename (lit "My: Video / Test???") 100 =
    lit "My-Video-Test" := by decide

example : extract_video_id (lit "https://youtube.com/watch?v=abc123&t=5") =
    lit "abc123" := by decide

example : pySplit2 '\n' '\n' (format_transcript [lit "a\n\n\n\nb"]) =
    [lit "a", [], lit "b"] := by decide

end Ytt
